import Mathlib

/-!
Shallow embedding of the piece-table document store
(`src/server/services/piece_table.py` and `src/server/services/text_block.py`).

Lines are modelled as Lean `String`s (each retaining its own terminator),
Python lists as Lean `List`s, table entries `[block_id, start, length]` as the
record `Entry`.  Line numbers and table indices are natural numbers (the
interface works with 0-based line numbers and counts); the places where a
Python `int` can go negative during the algorithms (`length` of a read,
remaining-length counters, slice endpoints) are modelled with `Int` so that
Python's arithmetic, including its negative slice-endpoint semantics, is
reproduced faithfully.  Exceptions are modelled with `Option`/`Except`:
a raise inside a method returns the state as it was at the moment of the
raise, so that absence of partial mutation is a provable property rather
than one built into the encoding.
-/

/-- Model of `TextBlock` (`text_block.py`): a list of lines plus an
open/closed flag (`self.open`).  The Python constructor default is
`is_open = True`. -/
structure TextBlock where
  lines : List String
  is_open : Bool
deriving DecidableEq

/-- Python slice endpoint semantics for `xs[start : stop]` with `start ≥ 0`:
a negative `stop` counts from the end of the list (clamped at 0). -/
def pyStop (n : Nat) (stop : Int) : Nat :=
  if stop < 0 then ((n : Int) + stop).toNat else stop.toNat

/-- Embedding of `TextBlock.get_lines(start, length)` = `self.lines[start : start + length]`
(`text_block.py` line 17).  Python list slicing never raises: it clamps. -/
def TextBlock.get_lines (b : TextBlock) (start : Nat) (length : Int) : List String :=
  (b.lines.take (pyStop b.lines.length ((start : Int) + length))).drop start

/-- Embedding of `TextBlock.close()` (`text_block.py` lines 19-20). -/
def TextBlock.close (b : TextBlock) : TextBlock :=
  { b with is_open := false }

/-- A piece-table entry `[block_id, start, length]`
(`piece_table.py`, `self.table` rows). -/
structure Entry where
  blk : Nat
  start : Nat
  length : Nat
deriving DecidableEq

/-- Model of `PieceTable` state: the append-only block list and the entry
table (`piece_table.py` lines 23-24). -/
structure PieceTable where
  blocks : List TextBlock
  table : List Entry
deriving DecidableEq

/-- Lookup of `self.blocks[i]` for indices known (or claimed) to be in range; out-of-range
access returns a default block, but every use below is guarded by the bounds
facts the algorithms establish. -/
def blockAt (bs : List TextBlock) (i : Nat) : TextBlock :=
  bs.getD i ⟨[], false⟩

/-- Lookup of `self.table[i]` with an inert default, as `blockAt`. -/
def entryAt (t : List Entry) (i : Nat) : Entry :=
  t.getD i ⟨0, 0, 0⟩

/-- Sum of the `length` fields of a run of entries
(the body of `PieceTable.__len__`). -/
def sumLen (t : List Entry) : Nat :=
  (t.map Entry.length).sum

namespace PieceTable

/-- Embedding of `PieceTable.__init__` applied to an already-split list of lines
(`piece_table.py` lines 19-24, the non-`str` branch): one closed block
holding all lines, one entry `[0, 0, len(lines)]`. -/
def mkLines (lines : List String) : PieceTable :=
  ⟨[⟨lines, false⟩], [⟨0, 0, lines.length⟩]⟩

/-- Embedding of `PieceTable.__len__` (`piece_table.py` lines 26-30). -/
def len (pt : PieceTable) : Nat :=
  sumLen pt.table

/-- The scan of `line_to_table_index` (`piece_table.py` lines 46-54):
walk the entries accumulating the running start; succeed at the first entry
containing the line, with the residual offset inside it. -/
def locAux : List Entry → Nat → Option (Nat × Nat)
  | [], _ => none
  | e :: rest, line =>
    if line < e.length then some (0, line)
    else
      match locAux rest (line - e.length) with
      | some (i, off) => some (i + 1, off)
      | none => none

/-- Embedding of `PieceTable.line_to_table_index` (`piece_table.py` lines 41-54);
`none` models the `ValueError("Invalid line number")`. -/
def line_to_table_index (pt : PieceTable) (line : Nat) : Option (Nat × Nat) :=
  locAux pt.table line

/-- The while-loop of `get_block_range` (`piece_table.py` lines 72-74):
number of further whole entries consumed while the remaining length is
positive. -/
def walkSpan : List Entry → Int → Nat
  | [], _ => 0
  | e :: rest, rem => if 0 < rem then 1 + walkSpan rest (rem - (e.length : Int)) else 0

/-- Embedding of `PieceTable.get_block_range` (`piece_table.py` lines 63-76):
inclusive range `(start-block, end-block)` of table positions covering the
line range; fails only when `line_to_table_index` fails. -/
def get_block_range (pt : PieceTable) (start : Nat) (length : Int) :
    Option (Nat × Nat) :=
  match pt.line_to_table_index start with
  | none => none
  | some (first, offset) =>
    let length_rem : Int := length - (((entryAt pt.table first).length : Int) - (offset : Int))
    some (first, first + walkSpan (pt.table.drop (first + 1)) length_rem)

/-- The assembly loop of `get_lines` (`piece_table.py` lines 93-104): the
first entry gets the residual offset (`line_s += offset; line_c -= offset`),
each entry yields `min(length_rem, line_c)` lines, and `length_rem` is
decremented by the entry's table length `tab_ent[2]` (not by the yielded
count). -/
def glGo (bs : List TextBlock) : List Entry → Int → Nat → List String
  | [], _, _ => []
  | e :: rest, length_rem, off =>
    (blockAt bs e.blk).get_lines (e.start + off)
        (min length_rem ((e.length : Int) - (off : Int))) ++
      glGo bs rest (length_rem - (e.length : Int)) 0

/-- Embedding of `PieceTable.get_lines` (`piece_table.py` lines 78-106): a negative
`length` means "until the last line"; fails only when
`line_to_table_index(start)` fails. -/
def get_lines (pt : PieceTable) (start : Nat) (length : Int) :
    Option (List String) :=
  let length' : Int := if length < 0 then (pt.len : Int) else length
  match pt.line_to_table_index start with
  | none => none
  | some (_, offset) =>
    match pt.get_block_range start length' with
    | none => none
    | some (first, last) =>
      some (glGo pt.blocks ((pt.table.drop first).take (last + 1 - first)) length' offset)

/-- Embedding of `PieceTable.stitch` (`piece_table.py` lines 108-119): concatenation of
every entry's line run in table order. -/
def stitch (pt : PieceTable) : List String :=
  (pt.table.map (fun e => (blockAt pt.blocks e.blk).get_lines e.start (e.length : Int))).flatten

/-- Embedding of `PieceTable.remove_closed_blocks` (`piece_table.py` lines 121-132):
stitches the file and replaces `blocks[0]` with `TextBlock(stitched_file)` —
note the Python constructor's `is_open` default `True` is what that call
uses.  Returns the stitched file together with the new state. -/
def remove_closed_blocks (pt : PieceTable) : List String × PieceTable :=
  let stitched_file := pt.stitch
  (stitched_file, { pt with blocks := pt.blocks.set 0 ⟨stitched_file, true⟩ })

/-- The tail-consuming while-loop of `open_block`
(`piece_table.py` lines 174-187): starting at table position `pos`, pop
whole entries strictly shorter than the remaining overshoot, then shrink
in place (advance `start`, reduce `length`) the first entry that is not. -/
def consumeTail (t : List Entry) (pos rem : Nat) : List Entry :=
  if h : 0 < rem ∧ pos < t.length then
    let e := t.get ⟨pos, h.2⟩
    if e.length < rem then consumeTail (t.eraseIdx pos) pos (rem - e.length)
    else t.set pos ⟨e.blk, e.start + rem, e.length - rem⟩
  else t
termination_by t.length - pos
decreasing_by
  simp only [List.length_eraseIdx, h.2, if_pos]
  omega

/-- Error kinds surfaced by the table: `invalidLine` models
`ValueError("Invalid line number")` (the spec's LineOutOfRange) and
`illegalRegion` models `ValueError("Illegal block request")`
(the spec's IllegalRegion). -/
inductive PTErr where
  | invalidLine
  | illegalRegion
deriving DecidableEq

/-- Embedding of `PieceTable.open_block` (`piece_table.py` lines 134-189), step by step:
check the span for open blocks, check the bound, snapshot the lines,
append the new open block, shrink the containing entry to the residual
offset, insert the new entry, then either insert the remainder entry
(`rem > 0`) or consume the overshoot from the following entries.
The returned pair carries the result (the Python return value `index + 1`,
or the raised error) together with the state as left by the call — on the
paths where Python raises, the state at the moment of the raise. -/
def open_block (pt : PieceTable) (start length : Nat) :
    Except PTErr Nat × PieceTable :=
  match pt.get_block_range start (length : Int) with
  | none => (.error .invalidLine, pt)
  | some (range_start, range_end) =>
    if ((pt.table.drop range_start).take (range_end + 1 - range_start)).any
        (fun e => (blockAt pt.blocks e.blk).is_open) then
      (.error .illegalRegion, pt)
    else if pt.len < start + length then
      (.error .illegalRegion, pt)
    else
      match pt.get_lines start (length : Int) with
      | none => (.error .invalidLine, pt)
      | some block_lines =>
        let blocks' := pt.blocks ++ [⟨block_lines, true⟩]
        match pt.line_to_table_index start with
        | none => (.error .invalidLine, { pt with blocks := blocks' })
        | some (index, offset) =>
          let prev_len := (entryAt pt.table index).length
          let t1 := pt.table.set index ⟨(entryAt pt.table index).blk, (entryAt pt.table index).start, offset⟩
          let t2 := t1.insertIdx (index + 1) ⟨blocks'.length - 1, 0, length⟩
          let rem : Int := (prev_len : Int) - ((offset : Int) + (length : Int))
          let t3 :=
            if 0 < rem then
              t2.insertIdx (index + 2)
                ⟨(entryAt t2 index).blk,
                 (entryAt t2 index).start + offset + length, rem.toNat⟩
            else
              consumeTail t2 (index + 2) (-rem).toNat
          (.ok (index + 1), { pt with blocks := blocks', table := t3 })

/-- Embedding of `PieceTable.close_block` (`piece_table.py` lines 191-198):
`self.blocks[index].close()`; an out-of-range index raises (`none`),
otherwise only that block's flag changes. -/
def close_block (pt : PieceTable) (index : Nat) : Option PieceTable :=
  if index < pt.blocks.length then
    some { pt with blocks := pt.blocks.set index (blockAt pt.blocks index).close }
  else none

end PieceTable

/-- Python line-boundary characters for `str.splitlines`
(LF, CR, VT, FF, FS, GS, RS, NEL, LINE SEPARATOR, PARAGRAPH SEPARATOR). -/
def isLineBoundary (c : Char) : Bool :=
  c = '\n' || c = '\r' || c = '\x0b' || c = '\x0c' ||
    c = '\x1c' || c = '\x1d' || c = '\x1e' || c = '\x85' ||
    c = '\u2028' || c = '\u2029'

/-- Embedding of `str.splitlines(True)` on a character list: split at every line boundary,
`"\r\n"` counting as a single terminator, every piece keeping its terminator;
a final piece without terminator is kept, and the empty string yields no
lines.  `acc` holds the (reversed) characters of the line being read. -/
def splitlinesKeep (cs acc : List Char) : List (List Char) :=
  match cs with
  | [] => if acc = [] then [] else [acc.reverse]
  | c :: rest =>
    if c = '\r' ∧ rest.head? = some '\n' then
      (acc.reverse ++ ['\r', '\n']) :: splitlinesKeep rest.tail []
    else if isLineBoundary c then (acc.reverse ++ [c]) :: splitlinesKeep rest []
    else splitlinesKeep rest (c :: acc)
termination_by cs.length
decreasing_by
  all_goals simp [List.length_tail]
  omega

/-- Embedding of `text.splitlines(True)` as a list of line strings. -/
def pySplitlines (s : String) : List String :=
  (splitlinesKeep s.data []).map String.mk

/-- Embedding of `PieceTable.__init__` applied to a `str`
(`piece_table.py` lines 16-18, the `isinstance(text, str)` branch):
the text is split with `splitlines(True)` and construction proceeds as
from a line list. -/
def PieceTable.mkString (s : String) : PieceTable :=
  PieceTable.mkLines (pySplitlines s)

/-- Modelled from the spec (§3): rejoining a terminator-retaining line split
must "reconstruct exact byte content" — the concatenation of the lines is the
original string.  Used to state that `pySplitlines` is such a split. -/
def rejoin (lines : List String) : String :=
  String.join lines

/-! ## Basic lemmas about entry-length sums and the table algorithms -/

theorem sumLen_nil : sumLen [] = 0 := rfl

theorem sumLen_cons (e : Entry) (t : List Entry) :
    sumLen (e :: t) = e.length + sumLen t := by
  simp [sumLen]

theorem sumLen_append (a b : List Entry) :
    sumLen (a ++ b) = sumLen a + sumLen b := by
  simp [sumLen]

theorem entryAt_cons_zero (e : Entry) (t : List Entry) : entryAt (e :: t) 0 = e := rfl

theorem entryAt_cons_succ (e : Entry) (t : List Entry) (i : Nat) :
    entryAt (e :: t) (i + 1) = entryAt t i := rfl

theorem entryAt_cons_drop {t : List Entry} {i : Nat} (h : i < t.length) :
    t.drop i = entryAt t i :: t.drop (i + 1) := by
  rw [List.drop_eq_getElem_cons h, entryAt, List.getD_eq_getElem _ _ h]

theorem sumLen_decomp {t : List Entry} {i : Nat} (h : i < t.length) :
    sumLen t = sumLen (t.take i) + (entryAt t i).length + sumLen (t.drop (i + 1)) := by
  conv_lhs => rw [← List.take_append_drop i t]
  rw [sumLen_append, entryAt_cons_drop h, sumLen_cons]
  omega

theorem sumLen_set {t : List Entry} {i : Nat} (e : Entry) (h : i < t.length) :
    sumLen (t.set i e) + (entryAt t i).length = sumLen t + e.length := by
  induction t generalizing i with
  | nil => simp at h
  | cons a rest ih =>
    cases i with
    | zero => simp [sumLen_cons, entryAt_cons_zero]; omega
    | succ n =>
      have hn : n < rest.length := by simpa using h
      have := @ih n hn
      simp only [List.set_cons_succ, sumLen_cons, entryAt_cons_succ]
      omega

theorem sumLen_insertIdx {t : List Entry} {i : Nat} (e : Entry) (h : i ≤ t.length) :
    sumLen (t.insertIdx i e) = sumLen t + e.length := by
  induction t generalizing i with
  | nil =>
    have : i = 0 := by simpa using h
    subst this
    simp [List.insertIdx, sumLen_cons, sumLen_nil]
  | cons a rest ih =>
    cases i with
    | zero => simp [List.insertIdx, sumLen_cons]; omega
    | succ n =>
      have hn : n ≤ rest.length := by simpa using h
      simp only [List.insertIdx_succ_cons, sumLen_cons, ih hn]
      omega

theorem sumLen_eraseIdx {t : List Entry} {i : Nat} (h : i < t.length) :
    sumLen (t.eraseIdx i) + (entryAt t i).length = sumLen t := by
  induction t generalizing i with
  | nil => simp at h
  | cons a rest ih =>
    cases i with
    | zero => simp [List.eraseIdx, sumLen_cons, entryAt_cons_zero]; omega
    | succ n =>
      have hn : n < rest.length := by simpa using h
      have := @ih n hn
      simp only [List.eraseIdx_cons_succ, sumLen_cons, entryAt_cons_succ]
      omega

theorem drop_eraseIdx_self : ∀ (t : List Entry) (pos : Nat),
    (t.eraseIdx pos).drop pos = t.drop (pos + 1)
  | [], _ => by simp
  | _ :: _, 0 => by simp
  | a :: t, pos + 1 => by
    simpa using drop_eraseIdx_self t pos

theorem drop_succ_set : ∀ (t : List Entry) (i : Nat) (e : Entry),
    (t.set i e).drop (i + 1) = t.drop (i + 1)
  | [], _, _ => by simp
  | _ :: _, 0, _ => by simp
  | a :: t, i + 1, e => by
    simpa using drop_succ_set t i e

theorem drop_succ_insertIdx : ∀ (t : List Entry) (i : Nat) (e : Entry), i ≤ t.length →
    (t.insertIdx i e).drop (i + 1) = t.drop i
  | t, 0, e, _ => by simp [List.insertIdx]
  | [], i + 1, e, h => by simp at h
  | a :: t, i + 1, e, h => by
    have := drop_succ_insertIdx t i e (by simpa using h)
    simpa [List.insertIdx_succ_cons] using this

theorem locAux_spec : ∀ (t : List Entry) (line i off : Nat),
    PieceTable.locAux t line = some (i, off) →
    i < t.length ∧ off < (entryAt t i).length ∧ sumLen (t.take i) + off = line := by
  intro t
  induction t with
  | nil => intro line i off h; simp [PieceTable.locAux] at h
  | cons e rest ih =>
    intro line i off h
    simp only [PieceTable.locAux] at h
    by_cases hl : line < e.length
    · rw [if_pos hl] at h
      injection h with h'
      injection h' with h1 h2
      subst h1; subst h2
      exact ⟨by simp, by simpa [entryAt_cons_zero] using hl, by simp [sumLen_nil]⟩
    · rw [if_neg hl] at h
      cases hr : PieceTable.locAux rest (line - e.length) with
      | none => rw [hr] at h; exact absurd h (by simp)
      | some p =>
        obtain ⟨i', off'⟩ := p
        rw [hr] at h
        injection h with h'
        injection h' with h1 h2
        subst h1; subst h2
        obtain ⟨hlt, hoff, hsum⟩ := ih (line - e.length) i' off' hr
        refine ⟨by simpa using hlt, by simpa [entryAt_cons_succ] using hoff, ?_⟩
        simp only [List.take_succ_cons, sumLen_cons]
        omega

theorem consumeTail_sumLen : ∀ (t : List Entry) (pos rem : Nat),
    rem ≤ sumLen (t.drop pos) →
    sumLen (PieceTable.consumeTail t pos rem) + rem = sumLen t := by
  intro t pos rem
  induction t, pos, rem using PieceTable.consumeTail.induct with
  | case1 t pos rem h e he ih =>
    intro hrem
    have hE : e = entryAt t pos := by
      simp only [e, entryAt, List.get_eq_getElem, List.getD_eq_getElem _ _ h.2]
    rw [PieceTable.consumeTail, dif_pos h, if_pos he]
    rw [show t.get ⟨pos, h.2⟩ = e from rfl]
    rw [hE] at he ih ⊢
    have h1 : (t.eraseIdx pos).drop pos = t.drop (pos + 1) := drop_eraseIdx_self t pos
    have h2 : sumLen (t.eraseIdx pos) + (entryAt t pos).length = sumLen t :=
      sumLen_eraseIdx h.2
    have hsd : sumLen (t.drop pos) = (entryAt t pos).length + sumLen (t.drop (pos + 1)) := by
      rw [entryAt_cons_drop h.2, sumLen_cons]
    have hc : rem - (entryAt t pos).length ≤ sumLen ((t.eraseIdx pos).drop pos) := by
      rw [h1]; omega
    have ih2 := ih hc
    omega
  | case2 t pos rem h e he =>
    intro hrem
    have hE : e = entryAt t pos := by
      simp only [e, entryAt, List.get_eq_getElem, List.getD_eq_getElem _ _ h.2]
    rw [PieceTable.consumeTail, dif_pos h, if_neg he]
    rw [show t.get ⟨pos, h.2⟩ = e from rfl]
    rw [hE] at he ⊢
    have hset := @sumLen_set t pos
      ⟨(entryAt t pos).blk, (entryAt t pos).start + rem, (entryAt t pos).length - rem⟩ h.2
    dsimp only at hset
    omega
  | case3 t pos rem h =>
    intro hrem
    rw [PieceTable.consumeTail, dif_neg h]
    rcases Nat.eq_zero_or_pos rem with hz | hp
    · omega
    · have hpl : t.length ≤ pos := by
        by_contra hc
        exact h ⟨hp, by omega⟩
      rw [List.drop_eq_nil_of_le hpl] at hrem
      simp [sumLen_nil] at hrem
      omega

theorem gbr_isSome_iff (pt : PieceTable) (s : Nat) (L : Int) :
    (pt.get_block_range s L).isSome ↔ (pt.line_to_table_index s).isSome := by
  unfold PieceTable.get_block_range
  cases h : pt.line_to_table_index s with
  | none => simp
  | some p =>
    obtain ⟨a, b⟩ := p
    simp

theorem get_lines_isSome (pt : PieceTable) (s : Nat) (L : Int)
    (h : (pt.line_to_table_index s).isSome) : (pt.get_lines s L).isSome := by
  obtain ⟨p, hp⟩ := Option.isSome_iff_exists.mp h
  obtain ⟨i, off⟩ := p
  have h2 : (pt.get_block_range s (if L < 0 then (pt.len : Int) else L)).isSome := by
    rw [gbr_isSome_iff]
    exact h
  obtain ⟨q, hq⟩ := Option.isSome_iff_exists.mp h2
  obtain ⟨f, la⟩ := q
  simp only [PieceTable.get_lines, hp, hq, Option.isSome_some]

/-- Characterization of a successful `open_block`: the result handle is
`index + 1` for the located entry, the bound check passed, exactly one open
block holding the snapshot was appended, and the table is the split/spliced
table of steps 4-5 of the algorithm. -/
theorem open_block_ok_spec {pt : PieceTable} {s l hnd : Nat} {pt' : PieceTable}
    (h : pt.open_block s l = (.ok hnd, pt')) :
    ∃ index offset block_lines,
      pt.line_to_table_index s = some (index, offset) ∧
      s + l ≤ pt.len ∧
      hnd = index + 1 ∧
      pt'.blocks = pt.blocks ++ [⟨block_lines, true⟩] ∧
      pt'.table =
        (let t2 := (pt.table.set index
            ⟨(entryAt pt.table index).blk, (entryAt pt.table index).start, offset⟩).insertIdx (index + 1)
            ⟨pt.blocks.length, 0, l⟩
         let rem : Int :=
           ((entryAt pt.table index).length : Int) - ((offset : Int) + (l : Int))
         if 0 < rem then
           t2.insertIdx (index + 2)
             ⟨(entryAt t2 index).blk, (entryAt t2 index).start + offset + l, rem.toNat⟩
         else
           PieceTable.consumeTail t2 (index + 2) (-rem).toNat) := by
  unfold PieceTable.open_block at h
  cases hg : pt.get_block_range s (l : Int) with
  | none => rw [hg] at h; simp at h
  | some rng =>
    obtain ⟨rs, re⟩ := rng
    rw [hg] at h
    simp only [] at h
    by_cases ho : ((pt.table.drop rs).take (re + 1 - rs)).any
        (fun e => (blockAt pt.blocks e.blk).is_open)
    · rw [if_pos ho] at h; simp at h
    · rw [if_neg ho] at h
      by_cases hb : pt.len < s + l
      · rw [if_pos hb] at h; simp at h
      · rw [if_neg hb] at h
        cases hgl : pt.get_lines s (l : Int) with
        | none => rw [hgl] at h; simp at h
        | some bl =>
          rw [hgl] at h
          cases hloc : pt.line_to_table_index s with
          | none => rw [hloc] at h; simp at h
          | some io =>
            obtain ⟨index, offset⟩ := io
            rw [hloc] at h
            simp only [Prod.mk.injEq, Except.ok.injEq] at h
            obtain ⟨hh, hpt⟩ := h
            refine ⟨index, offset, bl, rfl, by omega, hh.symm, ?_, ?_⟩
            · rw [← hpt]
            · rw [← hpt]
              simp only [List.length_append, List.length_cons, List.length_nil,
                Nat.add_sub_cancel]

/-- A successful `open_block` preserves the sum of the entries' lengths,
i.e. the table's `__len__`. -/
theorem open_block_preserves_len {pt : PieceTable} {s l hnd : Nat} {pt' : PieceTable}
    (h : pt.open_block s l = (.ok hnd, pt')) : pt'.len = pt.len := by
  obtain ⟨index, offset, bl, hloc, hbound, -, -, htab⟩ := open_block_ok_spec h
  obtain ⟨hidx, hoff, hsum⟩ := locAux_spec pt.table s index offset hloc
  simp only [] at htab
  have hlen_set : (pt.table.set index
      ⟨(entryAt pt.table index).blk, (entryAt pt.table index).start, offset⟩).length = pt.table.length := by
    simp
  have h1 : sumLen (pt.table.set index ⟨(entryAt pt.table index).blk, (entryAt pt.table index).start, offset⟩)
      + (entryAt pt.table index).length = sumLen pt.table + offset := by
    have := @sumLen_set pt.table index ⟨(entryAt pt.table index).blk, (entryAt pt.table index).start, offset⟩ hidx
    simpa using this
  have h2 : sumLen ((pt.table.set index
      ⟨(entryAt pt.table index).blk, (entryAt pt.table index).start, offset⟩).insertIdx (index + 1)
      ⟨pt.blocks.length, 0, l⟩)
      = sumLen (pt.table.set index ⟨(entryAt pt.table index).blk, (entryAt pt.table index).start, offset⟩) + l := by
    have := @sumLen_insertIdx
      (pt.table.set index ⟨(entryAt pt.table index).blk, (entryAt pt.table index).start, offset⟩) (index + 1)
      ⟨pt.blocks.length, 0, l⟩ (by omega)
    simpa using this
  have hdecomp := sumLen_decomp hidx
  rw [PieceTable.len, PieceTable.len, htab]
  by_cases hrem : (0 : Int) < ((entryAt pt.table index).length : Int)
      - ((offset : Int) + (l : Int))
  · rw [if_pos hrem]
    have h3 := @sumLen_insertIdx
      ((pt.table.set index ⟨(entryAt pt.table index).blk, (entryAt pt.table index).start, offset⟩).insertIdx
        (index + 1) ⟨pt.blocks.length, 0, l⟩) (index + 2)
      ⟨(entryAt ((pt.table.set index
          ⟨(entryAt pt.table index).blk, (entryAt pt.table index).start, offset⟩).insertIdx (index + 1)
          ⟨pt.blocks.length, 0, l⟩) index).blk,
       (entryAt ((pt.table.set index
          ⟨(entryAt pt.table index).blk, (entryAt pt.table index).start, offset⟩).insertIdx (index + 1)
          ⟨pt.blocks.length, 0, l⟩) index).start + offset + l,
       (((entryAt pt.table index).length : Int)
         - ((offset : Int) + (l : Int))).toNat⟩
      (by rw [List.length_insertIdx _ _ (by omega)]; omega)
    dsimp only at h3
    rw [h3, h2]
    omega
  · rw [if_neg hrem]
    have hdrop2 : ((pt.table.set index
        ⟨(entryAt pt.table index).blk, (entryAt pt.table index).start, offset⟩).insertIdx (index + 1)
        ⟨pt.blocks.length, 0, l⟩).drop (index + 2)
        = pt.table.drop (index + 1) := by
      rw [drop_succ_insertIdx _ _ _ (by omega)]
      exact drop_succ_set pt.table index _
    have hR : (-(((entryAt pt.table index).length : Int)
        - ((offset : Int) + (l : Int)))).toNat
        ≤ sumLen (((pt.table.set index
          ⟨(entryAt pt.table index).blk, (entryAt pt.table index).start, offset⟩).insertIdx (index + 1)
          ⟨pt.blocks.length, 0, l⟩).drop (index + 2)) := by
      rw [hdrop2]
      have : s + l ≤ sumLen pt.table := hbound
      omega
    have h4 := consumeTail_sumLen _ (index + 2) _ hR
    omega

/-- C5: whenever `open_block(start, length)` fails (raises), the table is left
exactly as it was before the call: no partial mutation is observable.  The
embedding returns the state as of the moment of the raise, and every raise in
`open_block` (inside `line_to_table_index` via `get_block_range`, the
open-span check, the bound check) happens before the first mutation; the
interior failure points that would leave a mutated state are unreachable. -/
theorem C5_failed_open_block_leaves_state (pt : PieceTable) (s l : Nat)
    (e : PieceTable.PTErr) (pt' : PieceTable)
    (h : pt.open_block s l = (.error e, pt')) : pt' = pt := by
  unfold PieceTable.open_block at h
  cases hg : pt.get_block_range s (l : Int) with
  | none =>
    rw [hg] at h
    simp only [Prod.mk.injEq] at h
    exact h.2.symm
  | some rng =>
    obtain ⟨rs, re⟩ := rng
    rw [hg] at h
    simp only [] at h
    have hloc : (pt.line_to_table_index s).isSome := by
      rw [← gbr_isSome_iff pt s (l : Int), hg]
      simp
    by_cases ho : ((pt.table.drop rs).take (re + 1 - rs)).any
        (fun en => (blockAt pt.blocks en.blk).is_open)
    · rw [if_pos ho] at h
      simp only [Prod.mk.injEq] at h
      exact h.2.symm
    · rw [if_neg ho] at h
      by_cases hb : pt.len < s + l
      · rw [if_pos hb] at h
        simp only [Prod.mk.injEq] at h
        exact h.2.symm
      · rw [if_neg hb] at h
        cases hgl : pt.get_lines s (l : Int) with
        | none =>
          have := get_lines_isSome pt s (l : Int) hloc
          rw [hgl] at this
          simp at this
        | some bl =>
          rw [hgl] at h
          cases hl : pt.line_to_table_index s with
          | none => rw [hl] at hloc; simp at hloc
          | some io =>
            obtain ⟨index, offset⟩ := io
            rw [hl] at h
            simp at h

theorem close_block_some {pt : PieceTable} {i : Nat} {pt' : PieceTable}
    (h : pt.close_block i = some pt') :
    i < pt.blocks.length ∧ pt'.table = pt.table ∧
    pt'.blocks = pt.blocks.set i (blockAt pt.blocks i).close := by
  unfold PieceTable.close_block at h
  split at h
  · injection h with h'
    exact ⟨by assumption, by rw [← h'], by rw [← h']⟩
  · exact absurd h (by simp)

/-- Table states reachable from construction out of a list of lines by
successful `open_block`/`close_block` calls. -/
inductive Reaches (lines : List String) : PieceTable → Prop where
  | init : Reaches lines (PieceTable.mkLines lines)
  | step_open (pt : PieceTable) (s l hnd : Nat) (pt' : PieceTable) :
      Reaches lines pt → pt.open_block s l = (.ok hnd, pt') → Reaches lines pt'
  | step_close (pt : PieceTable) (i : Nat) (pt' : PieceTable) :
      Reaches lines pt → pt.close_block i = some pt' → Reaches lines pt'

/-- C3: for every table constructed from a list of N lines and every sequence
of valid (successful) `open_block`/`close_block` calls, after every call the
sum of the entries' `length` fields — the value of `__len__` — equals N. -/
theorem C3_sum_lengths_invariant (lines : List String) (pt : PieceTable)
    (h : Reaches lines pt) : pt.len = lines.length := by
  induction h with
  | init => simp [PieceTable.mkLines, PieceTable.len, sumLen]
  | step_open pt s l hnd pt' hr hok ih =>
    rw [open_block_preserves_len hok]
    exact ih
  | step_close pt i pt' hr hc ih =>
    have htab : pt'.table = pt.table := (close_block_some hc).2.1
    rw [PieceTable.len, htab]
    exact ih

/-- Witness for C3 at a concrete input: a 2-line document, one successful
`open_block(0, 1)` — the reachable state still sums to 2. -/
theorem C3_sum_lengths_invariant_witness :
    ((PieceTable.mkLines ["a\n", "b\n"]).open_block 0 1).2.len = 2 := by
  exact C3_sum_lengths_invariant ["a\n", "b\n"] _
    (Reaches.step_open _ 0 1 1 _ Reaches.init rfl)

/-- Witness for C5 at a concrete input: `open_block(0, 5)` on a 1-line
document fails (out of bounds) and leaves the state unchanged. -/
theorem C5_failed_open_block_leaves_state_witness :
    ((PieceTable.mkLines ["a\n"]).open_block 0 5).2 = PieceTable.mkLines ["a\n"] := by
  exact C5_failed_open_block_leaves_state _ 0 5 .illegalRegion _ rfl

/-- A ten-line document, used by the locking scenarios. -/
def docTen : PieceTable :=
  PieceTable.mkLines ["0\n", "1\n", "2\n", "3\n", "4\n", "5\n", "6\n", "7\n", "8\n", "9\n"]

/-- C4: on a table of 10 lines, `open_block(2, 3)` succeeds; an immediately
following `open_block(3, 2)` fails with IllegalRegion (it overlaps the open
region) and leaves the state unchanged; `open_block(5, 3)` issued immediately
after that succeeds (its region is disjoint from the open region). -/
theorem C4_locking_scenario :
    (docTen.open_block 2 3).1 = .ok 1 ∧
    ((docTen.open_block 2 3).2.open_block 3 2).1 = .error .illegalRegion ∧
    ((docTen.open_block 2 3).2.open_block 3 2).2 = (docTen.open_block 2 3).2 ∧
    (((docTen.open_block 2 3).2.open_block 3 2).2.open_block 5 3).1 = .ok 3 := by
  exact ⟨rfl, rfl, by decide, rfl⟩

/-- C2 (divergence evidence): `open_block` returns a *table position*, not a
block id.  On the ten-line document, `open_block(2, 3)` then `open_block(7, 2)`
succeeds returning handle 3, but only 3 blocks exist, so passing that handle
to `close_block` fails — the handle is not sufficient to retire the region. -/
theorem C2_returned_handle_not_closable :
    (docTen.open_block 2 3).1 = .ok 1 ∧
    ((docTen.open_block 2 3).2.open_block 7 2).1 = .ok 3 ∧
    ((docTen.open_block 2 3).2.open_block 7 2).2.blocks.length = 3 ∧
    ((docTen.open_block 2 3).2.open_block 7 2).2.close_block 3 = none := by
  exact ⟨rfl, rfl, rfl, rfl⟩

/-- The five-line document of the C1 scenario. -/
def docFive : PieceTable :=
  PieceTable.mkLines ["a\n", "b\n", "c\n", "d\n", "e\n"]

/-- State after `open_block(1, 2)` on the five-line document. -/
def c1Split : PieceTable := (docFive.open_block 1 2).2

/-- State after additionally closing that block (`close_block(1)`). -/
def c1AllClosed : PieceTable := (c1Split.close_block 1).getD c1Split

/-- C1 (divergence evidence): the claim that a successful `open_block` never
changes the stitched document fails.  After `open_block(1,2)`;
`close_block(1)` on a five-line document, the call `open_block(2, 2)`
*succeeds* (returns handle 2) yet the stitched document shrinks from
`["a\n","b\n","c\n","d\n","e\n"]` to `["a\n","b\n","c\n","e\n"]`: the
snapshot taken by `get_lines(2, 2)` contains only `["c\n"]` because the
remaining-length counter is decremented by the whole first entry length
without crediting the start offset. -/
theorem C1_successful_open_block_changes_document :
    (docFive.open_block 1 2).1 = .ok 1 ∧
    (c1Split.close_block 1).isSome = true ∧
    c1AllClosed.stitch = ["a\n", "b\n", "c\n", "d\n", "e\n"] ∧
    (c1AllClosed.open_block 2 2).1 = .ok 2 ∧
    (c1AllClosed.open_block 2 2).2.stitch = ["a\n", "b\n", "c\n", "e\n"] ∧
    (c1AllClosed.open_block 2 2).2.stitch ≠ c1AllClosed.stitch := by
  have hct : PieceTable.consumeTail
      [⟨0, 0, 1⟩, ⟨1, 0, 1⟩, ⟨2, 0, 2⟩, ⟨0, 3, 2⟩] 3 1
      = [⟨0, 0, 1⟩, ⟨1, 0, 1⟩, ⟨2, 0, 2⟩, ⟨0, 4, 1⟩] := by
    rw [PieceTable.consumeTail]
    decide
  have h1 : c1AllClosed.open_block 2 2
      = (.ok 2,
        ⟨[⟨["a\n", "b\n", "c\n", "d\n", "e\n"], false⟩,
          ⟨["b\n", "c\n"], false⟩, ⟨["c\n"], true⟩],
         PieceTable.consumeTail
           [⟨0, 0, 1⟩, ⟨1, 0, 1⟩, ⟨2, 0, 2⟩, ⟨0, 3, 2⟩] 3 1⟩) := rfl
  refine ⟨rfl, rfl, rfl, rfl, ?_, ?_⟩
  · rw [h1, hct]
    rfl
  · rw [h1, hct, show c1AllClosed.stitch = ["a\n", "b\n", "c\n", "d\n", "e\n"] from rfl]
    decide

/-- C6 (divergence evidence): `remove_closed_blocks` stitches the document
and installs the stitched content at `blocks[0]`, but the Block it installs
is created with the constructor default `is_open = True`: immediately after
the call, the installed block reports open, not closed. -/
theorem C6_compaction_installs_open_block :
    ((PieceTable.mkLines ["a\n"]).remove_closed_blocks).1 = ["a\n"] ∧
    (blockAt ((PieceTable.mkLines ["a\n"]).remove_closed_blocks).2.blocks 0).lines = ["a\n"] ∧
    (blockAt ((PieceTable.mkLines ["a\n"]).remove_closed_blocks).2.blocks 0).is_open = true := by
  exact ⟨by decide, by decide, rfl⟩

/-- C7 (counterexample): a zero-length entry persists after a successful
`open_block`.  On a two-line document, `open_block(0, 1)` succeeds and leaves
the shrunk predecessor entry `(0, 0, 0)` in the table, so it is false that
after every successful `open_block` every entry has length at least 1. -/
theorem C7_zero_length_entry_after_open_block :
    ((PieceTable.mkLines ["a\n", "b\n"]).open_block 0 1).1 = .ok 1 ∧
    ((PieceTable.mkLines ["a\n", "b\n"]).open_block 0 1).2.table
      = [⟨0, 0, 0⟩, ⟨1, 0, 1⟩, ⟨0, 1, 1⟩] ∧
    ¬ (∀ e ∈ ((PieceTable.mkLines ["a\n", "b\n"]).open_block 0 1).2.table,
        1 ≤ e.length) := by
  exact ⟨rfl, by decide, by decide⟩

/-- C7 (amended): after construction from a nonempty list of lines every
entry in the table has length at least 1; zero-length entries can, however,
persist after successful `open_block` calls (see the counterexample). -/
theorem C7_construction_entries_positive (lines : List String) (h : lines ≠ []) :
    ∀ e ∈ (PieceTable.mkLines lines).table, 1 ≤ e.length := by
  intro e he
  simp only [PieceTable.mkLines, List.mem_singleton] at he
  subst he
  have := List.length_pos.mpr h
  simpa using this

/-- Witness for the amended C7 at a concrete input. -/
theorem C7_construction_entries_positive_witness :
    1 ≤ (entryAt (PieceTable.mkLines ["a\n"]).table 0).length := by
  exact C7_construction_entries_positive ["a\n"] (by decide) _ (by decide)

/-- C8 (counterexample): `TextBlock.get_lines` does not fail when
`start + length` exceeds the block's length — Python slicing clamps.  On a
2-line block, `get_lines(1, 5)` (with 1 + 5 > 2) returns the truncated run
`["b\n"]` instead of failing. -/
theorem C8_slice_clamps_instead_of_failing :
    (TextBlock.mk ["a\n", "b\n"] false).lines.length < 1 + 5 ∧
    (TextBlock.mk ["a\n", "b\n"] false).get_lines 1 (5 : Int) = ["b\n"] := by
  exact ⟨by decide, by decide⟩

/-- C8 (amended): `get_lines(start, length)` never fails; for every block and
all natural `start` and `length` it returns the contiguous run starting at
`start` truncated at the block's end — exactly the requested run (a copy)
whenever `start + length` is within bounds. -/
theorem C8_slice_returns_clamped_run (b : TextBlock) (s l : Nat) :
    b.get_lines s (l : Int) = (b.lines.drop s).take l := by
  unfold TextBlock.get_lines pyStop
  rw [if_neg (by omega : ¬ ((s : Int) + (l : Int) < 0))]
  rw [show ((s : Int) + (l : Int)).toNat = s + l by omega]
  rw [List.drop_take]
  congr 1
  omega

/-- C9: `close_block(id)` fails exactly when `id` does not resolve to a live
block in the append-only block list (ids being append positions, i.e.
`id < len(blocks)`); when it does resolve, the call marks exactly that block
closed and performs no table mutation. -/
theorem C9_close_block_resolution (pt : PieceTable) (i : Nat) :
    (pt.close_block i = none ↔ pt.blocks.length ≤ i) ∧
    ∀ pt', pt.close_block i = some pt' →
      pt'.table = pt.table ∧
      pt'.blocks = pt.blocks.set i (blockAt pt.blocks i).close := by
  constructor
  · unfold PieceTable.close_block
    split
    · simp
      omega
    · simp
      omega
  · intro pt' h
    exact ⟨(close_block_some h).2.1, (close_block_some h).2.2⟩

/-- Witness for C9 at concrete inputs: on a one-block table, `close_block 1`
fails and `close_block 0` keeps the table. -/
theorem C9_close_block_resolution_witness :
    (PieceTable.mkLines ["a\n"]).close_block 1 = none ∧
    (((PieceTable.mkLines ["a\n"]).close_block 0).getD
        (PieceTable.mkLines ["a\n"])).table = (PieceTable.mkLines ["a\n"]).table := by
  exact ⟨(C9_close_block_resolution (PieceTable.mkLines ["a\n"]) 1).1.mpr (by decide),
    ((C9_close_block_resolution (PieceTable.mkLines ["a\n"]) 0).2 _ rfl).1⟩

theorem splitlinesKeep_flatten (cs acc : List Char) :
    (splitlinesKeep cs acc).flatten = acc.reverse ++ cs := by
  cases cs with
  | nil =>
    rw [splitlinesKeep.eq_def]
    by_cases h : acc = [] <;> simp [h]
  | cons c rest =>
    rw [splitlinesKeep.eq_def]
    dsimp only
    split
    · rename_i hcr
      obtain ⟨hc, hh⟩ := hcr
      have hrest : rest = '\n' :: rest.tail := by
        cases rest with
        | nil => simp at hh
        | cons d r2 =>
          simp at hh
          simp [hh]
      rw [List.flatten_cons, splitlinesKeep_flatten rest.tail []]
      subst hc
      rw [hrest]
      simp
    · split
      · rw [List.flatten_cons, splitlinesKeep_flatten rest []]
        simp
      · rw [splitlinesKeep_flatten rest (c :: acc)]
        simp
termination_by cs.length
decreasing_by
  all_goals simp [List.length_tail]
  omega

theorem join_map_mk (chunks : List (List Char)) :
    String.join (chunks.map String.mk) = String.mk chunks.flatten := by
  rw [String.join_eq]
  congr 1
  rw [List.map_map]
  have hid : String.data ∘ String.mk = id := funext fun l => rfl
  rw [hid, List.map_id]

/-- C10: constructing a `PieceTable` from a string is equivalent to
constructing it from that string's terminator-retaining line split: for every
string `s`, `PieceTable(s)` yields the same state — the same single closed
block content and the same single entry `(0, 0, N)` — as `PieceTable` applied
to the lines of `s` each keeping its own terminator (`splitlines(True)`),
and rejoining those lines reconstructs `s` exactly. -/
theorem C10_string_construction_equiv (s : String) :
    PieceTable.mkString s = PieceTable.mkLines (pySplitlines s) ∧
    (PieceTable.mkString s).blocks = [⟨pySplitlines s, false⟩] ∧
    (PieceTable.mkString s).table = [⟨0, 0, (pySplitlines s).length⟩] ∧
    rejoin (pySplitlines s) = s := by
  refine ⟨rfl, rfl, rfl, ?_⟩
  unfold rejoin pySplitlines
  rw [join_map_mk, splitlinesKeep_flatten]
  rfl
